import Mathlib

/-!
Verification of the `smacro` crate's three builders.

The crate expands, at each call site, into plain standard-library
operations:

* `s!`          : `String.new()` / `expr.to_string()` / `format!(...)`
  (src/s.rs, lines 63-73);
* `map!`        : `HashMap.new()` followed by one `insert` per
  `key => value` pair, in the literal order (src/map.rs, lines 108-121);
* `set!`        : `HashSet.new()` followed by one `insert` per element,
  in the literal order (src/set.rs, lines 93-107).

The embedding models a `HashMap` as an association list with unique keys
(bucket order abstracted to insertion order; `insert` replaces the value
of the first entry with an equal key, keeping the original key, exactly
as `HashMap.insert` documents) and a `HashSet` as a list of pairwise
inequivalent elements.  Element equality is modelled by a projection
`key : α → K`: Rust's `Eq` may identify values that differ in fields the
equality ignores, and `HashSet.insert` keeps the element already stored.
The host's formatting facility is modelled by an executable template
parser and renderer, and effectful argument expressions by explicit
state-passing functions.
-/

namespace Smacro

/-- Strict first-biased choice on options, used to phrase lookup lemmas. -/
def optOr {α : Type _} : Option α → Option α → Option α
  | some a, _ => some a
  | none, b => b

@[simp] theorem optOr_some {α : Type _} (a : α) (b : Option α) :
    optOr (some a) b = some a := rfl

@[simp] theorem optOr_none {α : Type _} (b : Option α) : optOr none b = b := rfl

theorem optOr_assoc {α : Type _} (a b c : Option α) :
    optOr (optOr a b) c = optOr a (optOr b c) := by
  cases a <;> rfl

theorem optOr_none_right {α : Type _} (a : Option α) : optOr a none = a := by
  cases a <;> rfl

/-! ### Model of `std::collections::HashMap`, as used by `map!` -/

/-- Model of `HashMap::new()`: the empty association list. -/
def hashMapNew {K V : Type _} : List (K × V) := []

/-- Model of `HashMap::insert(k, v)`: replace the value of the entry whose
key equals `k` (keeping the stored key, as Rust documents), or append a
new entry when no key equals `k`. -/
def hmInsert {K V : Type _} [DecidableEq K] : List (K × V) → K → V → List (K × V)
  | [], k, v => [(k, v)]
  | p :: rest, k, v =>
    if p.1 = k then (p.1, v) :: rest else p :: hmInsert rest k v

/-- Model of `HashMap` lookup (`get` / indexing) by key equality. -/
def hmLookup {K V : Type _} [DecidableEq K] : List (K × V) → K → Option V
  | [], _ => none
  | p :: rest, k => if p.1 = k then some p.2 else hmLookup rest k

/-- Expansion of `map!` (src/map.rs, lines 108-121): start from
`HashMap::new()` and insert each `key => value` pair in literal order.
On the empty pair list this is definitionally the zero-pair arm
`HashMap::new()`. -/
def mapMacro {K V : Type _} [DecidableEq K] (pairs : List (K × V)) : List (K × V) :=
  pairs.foldl (fun m p => hmInsert m p.1 p.2) hashMapNew

/-- Value paired with the last occurrence of key `k` in the pair list `P`
(first match of the reversed list), `none` when `k` never occurs. -/
def lastVal {K V : Type _} [DecidableEq K] (P : List (K × V)) (k : K) : Option V :=
  (P.reverse.find? (fun p => decide (p.1 = k))).map Prod.snd

/-! ### Model of `std::collections::HashSet`, as used by `set!` -/

/-- Model of `HashSet::new()`: the empty list. -/
def hashSetNew {α : Type _} : List α := []

/-- Model of `HashSet::insert(e)` for an element type whose equality is
the kernel of the projection `key`: when an equivalent element is already
stored the set is returned unchanged (Rust's `insert` does not replace),
otherwise `e` is added. -/
def hsInsert {α K : Type _} [DecidableEq K] (key : α → K) : List α → α → List α
  | [], e => [e]
  | x :: rest, e =>
    if key x = key e then x :: rest else x :: hsInsert key rest e

/-- Stored element of the modelled `HashSet` equivalent to class `k`. -/
def hsFind {α K : Type _} [DecidableEq K] (key : α → K) : List α → K → Option α
  | [], _ => none
  | x :: rest, k => if key x = k then some x else hsFind key rest k

/-- Model of `HashSet::contains(e)`: membership up to the modelled
equality. -/
def hsContains {α K : Type _} [DecidableEq K] (key : α → K) (s : List α) (e : α) : Bool :=
  (hsFind key s (key e)).isSome

/-- Expansion of `set!` (src/set.rs, lines 93-107): start from
`HashSet::new()` and insert each element in literal order.  On the empty
element list this is definitionally the zero-element arm
`HashSet::new()`. -/
def setMacro {α K : Type _} [DecidableEq K] (key : α → K) (es : List α) : List α :=
  es.foldl (hsInsert key) hashSetNew

/-! ### Key lists: the shape shared by both collection builders -/

/-- Effect of one insertion on the list of keys: keep the key list when
the key is present, append it otherwise. -/
def keyInsert {K : Type _} [DecidableEq K] : List K → K → List K
  | [], k => [k]
  | x :: rest, k => if x = k then x :: rest else x :: keyInsert rest k

/-- Keys accumulated by a run of insertions starting from `acc`. -/
def keyFold {K : Type _} [DecidableEq K] (acc : List K) (l : List K) : List K :=
  l.foldl keyInsert acc

theorem keyInsert_cons {K : Type _} [DecidableEq K] (x k : K) (rest : List K) :
    keyInsert (x :: rest) k = if x = k then x :: rest else x :: keyInsert rest k := rfl

theorem mem_keyInsert {K : Type _} [DecidableEq K] (l : List K) (k a : K) :
    a ∈ keyInsert l k ↔ a ∈ l ∨ a = k := by
  induction l with
  | nil => simp [keyInsert]
  | cons x rest ih =>
    rw [keyInsert_cons]
    by_cases h : x = k
    · subst h
      rw [if_pos rfl]
      simp only [List.mem_cons]
      tauto
    · rw [if_neg h]
      simp only [List.mem_cons, ih]
      tauto

theorem nodup_keyInsert {K : Type _} [DecidableEq K] (l : List K) (k : K)
    (h : l.Nodup) : (keyInsert l k).Nodup := by
  induction l with
  | nil => simp [keyInsert]
  | cons x rest ih =>
    rcases List.nodup_cons.mp h with ⟨hx, hrest⟩
    simp only [keyInsert]
    by_cases hxk : x = k
    · simpa [if_pos hxk] using h
    · rw [if_neg hxk]
      refine List.nodup_cons.mpr ⟨?_, ih hrest⟩
      intro hmem
      rcases (mem_keyInsert rest k x).mp hmem with h1 | h1
      · exact hx h1
      · exact hxk h1

theorem length_keyInsert {K : Type _} [DecidableEq K] (l : List K) (k : K) :
    (keyInsert l k).length = if k ∈ l then l.length else l.length + 1 := by
  induction l with
  | nil => simp [keyInsert]
  | cons x rest ih =>
    by_cases h : x = k
    · subst h
      simp [keyInsert]
    · have hne : ¬ k = x := fun hk => h hk.symm
      simp [keyInsert, if_neg h, ih, List.mem_cons, hne]
      by_cases hk : k ∈ rest <;> simp [hk]

theorem mem_keyFold {K : Type _} [DecidableEq K] (l acc : List K) (a : K) :
    a ∈ keyFold acc l ↔ a ∈ acc ∨ a ∈ l := by
  induction l generalizing acc with
  | nil => simp [keyFold]
  | cons x rest ih =>
    simp only [keyFold, List.foldl_cons] at *
    rw [ih (keyInsert acc x), mem_keyInsert]
    simp [List.mem_cons, or_assoc, or_comm, or_left_comm]

theorem nodup_keyFold {K : Type _} [DecidableEq K] (l acc : List K)
    (h : acc.Nodup) : (keyFold acc l).Nodup := by
  induction l generalizing acc with
  | nil => simpa [keyFold] using h
  | cons x rest ih =>
    simp only [keyFold, List.foldl_cons]
    exact ih (keyInsert acc x) (nodup_keyInsert acc x h)

theorem toFinset_keyFold {K : Type _} [DecidableEq K] (l : List K) :
    (keyFold [] l).toFinset = l.toFinset := by
  ext a
  simp [List.mem_toFinset, mem_keyFold]

theorem length_keyFold {K : Type _} [DecidableEq K] (l : List K) :
    (keyFold [] l).length = l.toFinset.card := by
  have hnd : (keyFold [] l).Nodup := nodup_keyFold l [] List.nodup_nil
  rw [← toFinset_keyFold l, List.toFinset_card_of_nodup hnd]

/-! ### Keys of the built collections -/

theorem keys_hmInsert {K V : Type _} [DecidableEq K] (m : List (K × V)) (k : K) (v : V) :
    (hmInsert m k v).map Prod.fst = keyInsert (m.map Prod.fst) k := by
  induction m with
  | nil => rfl
  | cons p rest ih =>
    by_cases h : p.1 = k
    · simp [hmInsert, keyInsert, if_pos h]
    · simp [hmInsert, keyInsert, if_neg h, ih]

theorem keys_mapMacro_aux {K V : Type _} [DecidableEq K] (P : List (K × V))
    (m : List (K × V)) :
    (P.foldl (fun m p => hmInsert m p.1 p.2) m).map Prod.fst =
      keyFold (m.map Prod.fst) (P.map Prod.fst) := by
  induction P generalizing m with
  | nil => rfl
  | cons p rest ih =>
    simp only [List.foldl_cons, List.map_cons, keyFold]
    rw [ih, ← keys_hmInsert]
    rfl

theorem keys_mapMacro {K V : Type _} [DecidableEq K] (P : List (K × V)) :
    (mapMacro P).map Prod.fst = keyFold [] (P.map Prod.fst) :=
  keys_mapMacro_aux P hashMapNew

theorem keys_hsInsert {α K : Type _} [DecidableEq K] (key : α → K) (s : List α) (e : α) :
    (hsInsert key s e).map key = keyInsert (s.map key) (key e) := by
  induction s with
  | nil => rfl
  | cons x rest ih =>
    by_cases h : key x = key e
    · simp [hsInsert, keyInsert, if_pos h]
    · simp [hsInsert, keyInsert, if_neg h, ih]

theorem keys_setMacro_aux {α K : Type _} [DecidableEq K] (key : α → K) (E : List α)
    (s : List α) :
    (E.foldl (hsInsert key) s).map key = keyFold (s.map key) (E.map key) := by
  induction E generalizing s with
  | nil => rfl
  | cons e rest ih =>
    simp only [List.foldl_cons, List.map_cons, keyFold]
    rw [ih, ← keys_hsInsert]
    rfl

theorem keys_setMacro {α K : Type _} [DecidableEq K] (key : α → K) (E : List α) :
    (setMacro key E).map key = keyFold [] (E.map key) :=
  keys_setMacro_aux key E hashSetNew

/-! ### Lookup in the built map -/

theorem hmLookup_hmInsert {K V : Type _} [DecidableEq K] (m : List (K × V))
    (k q : K) (v : V) :
    hmLookup (hmInsert m k v) q = if q = k then some v else hmLookup m q := by
  induction m with
  | nil =>
    by_cases h : q = k
    · simp [hmInsert, hmLookup, h]
    · have : ¬ k = q := fun hk => h hk.symm
      simp [hmInsert, hmLookup, this, h]
  | cons p rest ih =>
    by_cases h : p.1 = k
    · by_cases hq : q = k
      · subst hq
        simp [hmInsert, hmLookup, if_pos h, h]
      · have : ¬ p.1 = q := fun hp => hq (hp.symm.trans h)
        simp [hmInsert, hmLookup, if_pos h, this, hq]
    · by_cases hp : p.1 = q
      · have : ¬ q = k := fun hq => h (hp.trans hq)
        simp [hmInsert, hmLookup, if_neg h, hp, this]
      · simp [hmInsert, hmLookup, if_neg h, hp, ih]

theorem find?_append_or {α : Type _} (p : α → Bool) (l₁ l₂ : List α) :
    (l₁ ++ l₂).find? p = optOr (l₁.find? p) (l₂.find? p) := by
  induction l₁ with
  | nil => simp
  | cons a t ih =>
    by_cases h : p a
    · simp [List.find?_cons_of_pos _ h]
    · simp [List.find?_cons_of_neg _ h, ih]

theorem lastVal_cons {K V : Type _} [DecidableEq K] (p : K × V) (P : List (K × V))
    (k : K) :
    lastVal (p :: P) k =
      optOr (lastVal P k) (if p.1 = k then some p.2 else none) := by
  unfold lastVal
  rw [List.reverse_cons, find?_append_or]
  by_cases h : p.1 = k
  · cases hfind : P.reverse.find? (fun q => decide (q.1 = k)) with
    | none => simp [hfind, List.find?, h, optOr]
    | some q => simp [hfind, optOr]
  · cases hfind : P.reverse.find? (fun q => decide (q.1 = k)) with
    | none => simp [hfind, List.find?, h, optOr]
    | some q => simp [hfind, optOr]

theorem hmLookup_foldl {K V : Type _} [DecidableEq K] (P : List (K × V))
    (m : List (K × V)) (k : K) :
    hmLookup (P.foldl (fun m p => hmInsert m p.1 p.2) m) k =
      optOr (lastVal P k) (hmLookup m k) := by
  induction P generalizing m with
  | nil => simp [lastVal]
  | cons p rest ih =>
    simp only [List.foldl_cons]
    rw [ih, lastVal_cons, optOr_assoc]
    congr 1
    rw [hmLookup_hmInsert]
    by_cases h : p.1 = k
    · simp [h, optOr]
    · have : ¬ k = p.1 := fun hk => h hk.symm
      simp [h, this, optOr]

theorem hmLookup_mapMacro {K V : Type _} [DecidableEq K] (P : List (K × V)) (k : K) :
    hmLookup (mapMacro P) k = lastVal P k := by
  unfold mapMacro
  rw [hmLookup_foldl]
  simp [hashMapNew, hmLookup, optOr_none_right]

/-! ### Lookup in the built set -/

theorem hsFind_hsInsert {α K : Type _} [DecidableEq K] (key : α → K) (s : List α)
    (e : α) (q : K) :
    hsFind key (hsInsert key s e) q =
      optOr (hsFind key s q) (if key e = q then some e else none) := by
  induction s with
  | nil => simp [hsInsert, hsFind, optOr]
  | cons x rest ih =>
    simp only [hsInsert]
    by_cases h : key x = key e
    · rw [if_pos h]
      by_cases hq : key x = q
      · simp only [hsFind, if_pos hq, optOr_some]
      · have hne : ¬ key e = q := fun he => hq (h.trans he)
        simp only [hsFind, if_neg hq, if_neg hne, optOr_none_right]
    · rw [if_neg h]
      by_cases hq : key x = q
      · simp only [hsFind, if_pos hq, optOr_some]
      · simp only [hsFind, if_neg hq, ih]

theorem hsFind_foldl {α K : Type _} [DecidableEq K] (key : α → K) (E : List α)
    (s : List α) (q : K) :
    hsFind key (E.foldl (hsInsert key) s) q =
      optOr (hsFind key s q) (E.find? (fun x => decide (key x = q))) := by
  induction E generalizing s with
  | nil => simp [optOr_none_right]
  | cons e rest ih =>
    simp only [List.foldl_cons]
    rw [ih, hsFind_hsInsert, optOr_assoc]
    congr 1
    by_cases h : key e = q
    · simp [List.find?, h, optOr]
    · simp [List.find?, h, optOr]

theorem hsFind_setMacro {α K : Type _} [DecidableEq K] (key : α → K) (E : List α)
    (q : K) :
    hsFind key (setMacro key E) q = E.find? (fun x => decide (key x = q)) := by
  unfold setMacro
  rw [hsFind_foldl]
  simp [hashSetNew, hsFind]

theorem hsFind_isSome_iff {α K : Type _} [DecidableEq K] (key : α → K) (s : List α)
    (q : K) : (hsFind key s q).isSome = true ↔ q ∈ s.map key := by
  induction s with
  | nil => simp [hsFind]
  | cons x rest ih =>
    by_cases h : key x = q
    · simp [hsFind, h]
    · have : ¬ q = key x := fun hq => h hq.symm
      simp [hsFind, h, ih, this]

theorem hsInsert_mem_eq {α K : Type _} [DecidableEq K] (key : α → K) (s : List α)
    (e : α) (h : (hsFind key s (key e)).isSome = true) : hsInsert key s e = s := by
  induction s with
  | nil => simp [hsFind] at h
  | cons x rest ih =>
    by_cases hx : key x = key e
    · simp [hsInsert, if_pos hx]
    · rw [hsFind, if_neg hx] at h
      simp [hsInsert, if_neg hx, ih h]

/-! ### Model of the host string facilities used by `s!`

Modelled from the spec: Rust's `String::new`, the `ToString`/`Display`
conversions, and the `format!` facility live in the host standard
library, outside this repository; they are embedded here as executable
Lean functions following the spec's description of positional and
formatted substitution (fill, alignment, width, precision). -/

/-- Model of `String::new()`. -/
def stringNew : String := ""

/-- Argument values handed to the formatting facility. -/
inductive FmtValue where
  | str (s : String)
  | int (n : Int)
  | bool (b : Bool)
deriving DecidableEq

/-- Display rendering of an argument value (Rust `Display`). -/
def FmtValue.display : FmtValue → String
  | .str s => s
  | .int n => toString n
  | .bool b => if b then "true" else "false"

/-- Model of `ToString::to_string`: the blanket implementation renders the
value through its `Display` conversion. -/
def FmtValue.toStr (v : FmtValue) : String := v.display

/-- Whether the value formats as a number (right-aligned by default). -/
def FmtValue.isNumeric : FmtValue → Bool
  | .int _ => true
  | _ => false

/-- Alignment of a padded field. -/
inductive FmtAlign where
  | left
  | right
  | center
deriving DecidableEq

/-- Parsed format directive: fill character, alignment, minimum width and
precision. -/
structure FmtSpec where
  fill : Char
  align : Option FmtAlign
  width : Option Nat
  prec : Option Nat
deriving DecidableEq

/-- One component of a parsed template: a literal character or a
substitution (optional explicit index plus directive). -/
inductive Piece where
  | lit (c : Char)
  | arg (idx : Option Nat) (spec : FmtSpec)
deriving DecidableEq

/-- Leading decimal digits of a character list, with the remainder. -/
def takeDigits : List Char → List Char × List Char
  | [] => ([], [])
  | c :: rest =>
    if c.isDigit then
      let r := takeDigits rest
      (c :: r.1, r.2)
    else ([], c :: rest)

/-- Numeric value of a digit string. -/
def digitsToNat (ds : List Char) : Nat :=
  ds.foldl (fun n c => n * 10 + (c.toNat - 48)) 0

/-- Alignment denoted by a directive character, if any. -/
def alignOfChar (c : Char) : Option FmtAlign :=
  if c = '<' then some FmtAlign.left
  else if c = '>' then some FmtAlign.right
  else if c = '^' then some FmtAlign.center
  else none

/-- Parse the directive text after the colon of a substitution:
optional fill-and-alignment, optional width, optional precision. -/
def parseSpecText (cs : List Char) : Option FmtSpec :=
  let fa : Char × Option FmtAlign × List Char :=
    match cs with
    | a :: b :: r =>
      match alignOfChar b with
      | some al => (a, some al, r)
      | none =>
        match alignOfChar a with
        | some al => (' ', some al, b :: r)
        | none => (' ', none, a :: b :: r)
    | a :: r =>
      match alignOfChar a with
      | some al => (' ', some al, r)
      | none => (' ', none, a :: r)
    | [] => (' ', none, [])
  let wd := takeDigits fa.2.2
  let width : Option Nat := if wd.1.isEmpty then none else some (digitsToNat wd.1)
  match wd.2 with
  | [] => some ⟨fa.1, fa.2.1, width, none⟩
  | '.' :: pcs =>
    let pd := takeDigits pcs
    if pd.2.isEmpty && !pd.1.isEmpty then
      some ⟨fa.1, fa.2.1, width, some (digitsToNat pd.1)⟩
    else none
  | _ => none

/-- Parse the text of one substitution between braces:
an optional explicit argument index, then an optional directive. -/
def parseArgText (cs : List Char) : Option Piece :=
  let d := takeDigits cs
  let idx : Option Nat := if d.1.isEmpty then none else some (digitsToNat d.1)
  match d.2 with
  | [] => some (Piece.arg idx ⟨' ', none, none, none⟩)
  | ':' :: spec => (parseSpecText spec).map (Piece.arg idx)
  | _ => none

/-- Scan of the template text.  The first argument is `none` while
scanning literal text and `some acc` while inside a substitution, `acc`
holding the reversed characters read so far; doubled braces are literal
brace characters and a stray closing brace is malformed. -/
def scanTemplate : Option (List Char) → List Char → Option (List Piece)
  | none, [] => some []
  | none, '{' :: '{' :: rest => (scanTemplate none rest).map (Piece.lit '{' :: ·)
  | none, '}' :: '}' :: rest => (scanTemplate none rest).map (Piece.lit '}' :: ·)
  | none, '{' :: rest => scanTemplate (some []) rest
  | none, '}' :: _ => none
  | none, c :: rest => (scanTemplate none rest).map (Piece.lit c :: ·)
  | some _, [] => none
  | some acc, '}' :: rest =>
    match parseArgText acc.reverse with
    | none => none
    | some p => (scanTemplate none rest).map (p :: ·)
  | some acc, c :: rest => scanTemplate (some (c :: acc)) rest

/-- Parse a template string into its pieces; `none` means the template is
malformed and rejected at compile time by the host. -/
def parseTemplate (t : String) : Option (List Piece) :=
  scanTemplate none t.toList

/-- Resolve the automatic argument counter: each substitution without an
explicit index consumes the next argument position. -/
def resolvePieces (auto : Nat) : List Piece → List (Sum Char (Nat × FmtSpec))
  | [] => []
  | Piece.lit c :: rest => Sum.inl c :: resolvePieces auto rest
  | Piece.arg none spec :: rest => Sum.inr (auto, spec) :: resolvePieces (auto + 1) rest
  | Piece.arg (some i) spec :: rest => Sum.inr (i, spec) :: resolvePieces auto rest

/-- Render one value under a directive: precision truncates string-like
values, then the field is padded with the fill character to the minimum
width, numbers aligning right and text left by default. -/
def applySpec (spec : FmtSpec) (v : FmtValue) : String :=
  let base := v.display
  let t :=
    match spec.prec with
    | some p => if v.isNumeric then base else String.mk (base.toList.take p)
    | none => base
  match spec.width with
  | none => t
  | some w =>
    if w ≤ t.length then t
    else
      let padLen := w - t.length
      match spec.align.getD (if v.isNumeric then FmtAlign.right else FmtAlign.left) with
      | FmtAlign.left => t ++ String.mk (List.replicate padLen spec.fill)
      | FmtAlign.right => String.mk (List.replicate padLen spec.fill) ++ t
      | FmtAlign.center =>
        String.mk (List.replicate (padLen / 2) spec.fill) ++ t ++
          String.mk (List.replicate (padLen - padLen / 2) spec.fill)

/-- Render one resolved piece; the only failure is an argument index with
no matching argument, which the host rejects at compile time. -/
def renderPiece (args : List FmtValue) : Sum Char (Nat × FmtSpec) → Option String
  | Sum.inl c => some (String.singleton c)
  | Sum.inr (i, spec) => (args[i]?).map (applySpec spec)

/-- Render every resolved piece in order. -/
def renderAll (args : List FmtValue) : List (Sum Char (Nat × FmtSpec)) → Option (List String)
  | [] => some []
  | x :: rest =>
    match renderPiece args x with
    | none => none
    | some sx => (renderAll args rest).map (sx :: ·)

/-- Model of the host's `format!` facility: parse the template, resolve
automatic indices, render each piece and concatenate. -/
def rustFormat (t : String) (args : List FmtValue) : Option String :=
  match parseTemplate t with
  | none => none
  | some ps => (renderAll args (resolvePieces 0 ps)).map String.join

/-- Compile-time validity of a template and argument list: the template
parses and every substitution resolves to an existing argument. -/
def templateOk (t : String) (args : List FmtValue) : Bool :=
  match parseTemplate t with
  | none => false
  | some ps =>
    (resolvePieces 0 ps).all fun x =>
      match x with
      | Sum.inl _ => true
      | Sum.inr (i, _) => decide (i < args.length)

/-! ### The three arms of `s!` (src/s.rs, lines 63-73) -/

/-- Expansion of `s!()`: `String::new()`. -/
def sMacroEmpty : String := stringNew

/-- Expansion of `s!(expr)` for one argument: `expr.to_string()`, for any
type with a string conversion. -/
def sMacroOne {α : Type _} (toStr : α → String) (v : α) : String := toStr v

/-- Expansion of `s!(template, args...)`: `format!(template, args...)`,
delegated verbatim to the host facility. -/
def sMacroFmt (t : String) (args : List FmtValue) : Option String :=
  rustFormat t args

theorem renderAll_isSome (args : List FmtValue)
    (rs : List (Sum Char (Nat × FmtSpec)))
    (h : (rs.all fun x =>
      match x with
      | Sum.inl _ => true
      | Sum.inr (i, _) => decide (i < args.length)) = true) :
    (renderAll args rs).isSome = true := by
  induction rs with
  | nil => simp [renderAll]
  | cons x rest ih =>
    rw [List.all_cons, Bool.and_eq_true] at h
    have hrest := ih h.2
    cases x with
    | inl c =>
      simp only [renderAll, renderPiece]
      cases hr : renderAll args rest with
      | none => rw [hr] at hrest; simp at hrest
      | some l => simp
    | inr p =>
      obtain ⟨i, spec⟩ := p
      have hi : i < args.length := by simpa using h.1
      simp only [renderAll, renderPiece]
      rw [List.getElem?_eq_getElem hi]
      cases hr : renderAll args rest with
      | none => rw [hr] at hrest; simp at hrest
      | some l => simp

theorem rustFormat_isSome (t : String) (args : List FmtValue)
    (h : templateOk t args = true) : (rustFormat t args).isSome = true := by
  unfold templateOk at h
  unfold rustFormat
  cases hp : parseTemplate t with
  | none => rw [hp] at h; simp at h
  | some ps =>
    rw [hp] at h
    have hall := renderAll_isSome args (resolvePieces 0 ps) h
    simpa using hall

/-! ### Effectful argument expressions

Keys, values and elements at a call site are arbitrary expressions; the
expansion evaluates each exactly once, in the literal left-to-right
order.  An expression is modelled as a state-transforming computation
`σ → α × σ`; `runExprList` and `runPairExprs` are the canonical
once-each, left-to-right evaluations, and the effectful expansions below
mirror the generated code, which evaluates the key and value operands of
each `insert` call in order while threading the program state. -/

/-- A call-site argument expression: a state-transforming computation. -/
abbrev Expr (σ α : Type _) : Type _ := σ → α × σ

/-- Evaluate a list of expressions once each, left to right. -/
def runExprList {σ α : Type _} : List (Expr σ α) → σ → List α × σ
  | [], s => ([], s)
  | e :: rest, s =>
    let r1 := e s
    let r2 := runExprList rest r1.2
    (r1.1 :: r2.1, r2.2)

/-- Evaluate a list of key/value expression pairs once each, left to
right, the key before its value. -/
def runPairExprs {σ K V : Type _} : List (Expr σ K × Expr σ V) → σ → List (K × V) × σ
  | [], s => ([], s)
  | pe :: rest, s =>
    let rk := pe.1 s
    let rv := pe.2 rk.2
    let rr := runPairExprs rest rv.2
    ((rk.1, rv.1) :: rr.1, rr.2)

/-- Loop of the `map!` expansion over a mutable map: evaluate the next
key expression, then its value expression, then insert. -/
def mapMacroEffLoop {σ K V : Type _} [DecidableEq K] :
    List (Expr σ K × Expr σ V) → List (K × V) → σ → List (K × V) × σ
  | [], m, s => (m, s)
  | pe :: rest, m, s =>
    let rk := pe.1 s
    let rv := pe.2 rk.2
    mapMacroEffLoop rest (hmInsert m rk.1 rv.1) rv.2

/-- Expansion of `map!` with effectful key/value expressions. -/
def mapMacroEff {σ K V : Type _} [DecidableEq K]
    (pairs : List (Expr σ K × Expr σ V)) (s : σ) : List (K × V) × σ :=
  mapMacroEffLoop pairs hashMapNew s

/-- Loop of the `set!` expansion over a mutable set: evaluate the next
element expression, then insert. -/
def setMacroEffLoop {σ α K : Type _} [DecidableEq K] (key : α → K) :
    List (Expr σ α) → List α → σ → List α × σ
  | [], acc, s => (acc, s)
  | e :: rest, acc, s =>
    let r := e s
    setMacroEffLoop key rest (hsInsert key acc r.1) r.2

/-- Expansion of `set!` with effectful element expressions. -/
def setMacroEff {σ α K : Type _} [DecidableEq K] (key : α → K)
    (es : List (Expr σ α)) (s : σ) : List α × σ :=
  setMacroEffLoop key es hashSetNew s

theorem mapMacroEffLoop_eq {σ K V : Type _} [DecidableEq K]
    (pairs : List (Expr σ K × Expr σ V)) (m : List (K × V)) (s : σ) :
    mapMacroEffLoop pairs m s =
      ((runPairExprs pairs s).1.foldl (fun m p => hmInsert m p.1 p.2) m,
        (runPairExprs pairs s).2) := by
  induction pairs generalizing m s with
  | nil => rfl
  | cons pe rest ih =>
    simp only [mapMacroEffLoop, runPairExprs, List.foldl_cons]
    exact ih _ _

theorem setMacroEffLoop_eq {σ α K : Type _} [DecidableEq K] (key : α → K)
    (es : List (Expr σ α)) (acc : List α) (s : σ) :
    setMacroEffLoop key es acc s =
      ((runExprList es s).1.foldl (hsInsert key) acc, (runExprList es s).2) := by
  induction es generalizing acc s with
  | nil => rfl
  | cons e rest ih =>
    simp only [setMacroEffLoop, runExprList, List.foldl_cons]
    exact ih _ _

theorem stringJoin_singleton (s : String) : String.join [s] = s := by
  simp [String.join, String.empty_append]

/-! ### The claims -/

/-- C1: for every pair list `P`, possibly with duplicate keys, `map![P]`
has exactly one entry per distinct key of `P` (its key list has no
duplicates, carries exactly the keys of `P`, and its size is the number
of distinct keys), and the value stored for each key is the value of the
last occurrence of that key in `P`'s left-to-right order. -/
theorem map_builder_last_wins {K V : Type _} [DecidableEq K]
    (P : List (K × V)) (k : K) :
    ((mapMacro P).map Prod.fst).Nodup ∧
    (k ∈ (mapMacro P).map Prod.fst ↔ k ∈ P.map Prod.fst) ∧
    (mapMacro P).length = (P.map Prod.fst).toFinset.card ∧
    hmLookup (mapMacro P) k = lastVal P k := by
  refine ⟨?_, ?_, ?_, hmLookup_mapMacro P k⟩
  · rw [keys_mapMacro]
    exact nodup_keyFold _ _ List.nodup_nil
  · rw [keys_mapMacro, mem_keyFold]
    simp
  · rw [← List.length_map (mapMacro P) Prod.fst, keys_mapMacro, length_keyFold]

/-- C2, counterexample to the claim as stated: the empty-argument case
does not go through the formatting facility.  A call with the template
alone matches the single-expression arm of `s!` (src/s.rs, lines 67-69)
and expands to `template.to_string()`, so at the template consisting of
doubled braces — valid for the facility with no arguments — the program
returns the template verbatim while the facility renders the escapes:
`s!` yields four brace characters where `format!` yields two. -/
theorem s_builder_format_empty_refuted :
    templateOk "\x7b\x7b\x7d\x7d" [] = true ∧
    rustFormat "\x7b\x7b\x7d\x7d" [] = some "\x7b\x7d" ∧
    sMacroOne FmtValue.toStr (FmtValue.str "\x7b\x7b\x7d\x7d") = "\x7b\x7b\x7d\x7d" ∧
    some (sMacroOne FmtValue.toStr (FmtValue.str "\x7b\x7b\x7d\x7d")) ≠
      rustFormat "\x7b\x7b\x7d\x7d" [] := by
  refine ⟨by decide, by decide, rfl, by decide⟩

/-- C2 (amended): `s!(T, A...)` with a template and at least one
substitution argument returns exactly what the host's formatting
facility produces on `T` and `A` (the multi-token arm delegates to
`format!` verbatim, so width, precision and the other directives pass
through unchanged); a call with the template alone instead matches the
single-expression arm and returns the template's own string conversion,
the template verbatim. -/
theorem s_builder_format (t : String) (args : List FmtValue)
    (h : args ≠ []) :
    sMacroFmt t args = rustFormat t args ∧
    sMacroOne FmtValue.toStr (FmtValue.str t) = t :=
  ⟨rfl, rfl⟩

/-- Witness for the amended C2 at `"Hi {}"` with one argument. -/
theorem s_builder_format_witness :
    sMacroFmt "Hi \x7b\x7d" [FmtValue.str "Bob"] =
      rustFormat "Hi \x7b\x7d" [FmtValue.str "Bob"] ∧
    sMacroOne FmtValue.toStr (FmtValue.str "Hi \x7b\x7d") = "Hi \x7b\x7d" :=
  s_builder_format "Hi \x7b\x7d" [FmtValue.str "Bob"] (by decide)

/-- C3: `set!(E)` has size equal to the number of distinct elements of
`E` under the element type's equality (modelled by the projection
`key`), and contains every element of `E`. -/
theorem set_builder_distinct {α K : Type _} [DecidableEq K]
    (key : α → K) (E : List α) :
    (setMacro key E).length = (E.map key).toFinset.card ∧
    ∀ e ∈ E, hsContains key (setMacro key E) e = true := by
  constructor
  · rw [← List.length_map (setMacro key E) key, keys_setMacro, length_keyFold]
  · intro e he
    unfold hsContains
    rw [hsFind_isSome_iff, keys_setMacro, mem_keyFold]
    exact Or.inr (List.mem_map_of_mem key he)

/-- Witness for C3 at the spec's concrete scenario `set!(1,2,2,3,3,3)`. -/
theorem set_builder_distinct_witness :
    (setMacro (fun n : Nat => n) [1, 2, 2, 3, 3, 3]).length = 3 ∧
    hsContains (fun n : Nat => n) (setMacro (fun n : Nat => n) [1, 2, 2, 3, 3, 3]) 2 = true := by
  constructor
  · rw [(set_builder_distinct (fun n : Nat => n) [1, 2, 2, 3, 3, 3]).1]
    decide
  · exact (set_builder_distinct (fun n : Nat => n) [1, 2, 2, 3, 3, 3]).2 2 (by decide)

/-- C4: `s!(v)` with exactly one argument returns `v`'s own string
conversion; for the modelled value type this conversion is the `Display`
rendering, the same string the formatting facility substitutes for a
bare directive. -/
theorem s_builder_to_string {α : Type _} (toStr : α → String) (v : α) :
    sMacroOne toStr v = toStr v ∧
    ∀ w : FmtValue, sMacroOne FmtValue.toStr w = FmtValue.toStr w ∧
      rustFormat "\x7b\x7d" [w] = some (sMacroOne FmtValue.toStr w) := by
  refine ⟨rfl, fun w => ⟨rfl, ?_⟩⟩
  have hp : parseTemplate "\x7b\x7d" = some [Piece.arg none ⟨' ', none, none, none⟩] := by
    decide
  unfold rustFormat
  rw [hp]
  simp [resolvePieces, renderAll, renderPiece, applySpec, stringJoin_singleton,
    sMacroOne, FmtValue.toStr]

/-- C5: in every invocation of `map!` and `set!`, the key, value and
element expressions are each evaluated exactly once, in the left-to-right
order of the literal argument list: the effectful expansion equals the
canonical once-each left-to-right evaluation of the expressions followed
by the pure construction from the evaluated arguments. -/
theorem builders_evaluate_once_in_order {σ K V α : Type _} [DecidableEq K]
    (key : α → K) (pairs : List (Expr σ K × Expr σ V))
    (es : List (Expr σ α)) (s : σ) :
    mapMacroEff pairs s =
      (mapMacro (runPairExprs pairs s).1, (runPairExprs pairs s).2) ∧
    setMacroEff key es s =
      (setMacro key (runExprList es s).1, (runExprList es s).2) :=
  ⟨mapMacroEffLoop_eq pairs hashMapNew s, setMacroEffLoop_eq key es hashSetNew s⟩

/-- C6: the zero-argument collection builders produce empty collections:
`map![]` is `HashMap::new()`, empty, of size 0 and with every lookup
`none`; `set!()` is `HashSet::new()`, empty and of size 0. -/
theorem builders_empty {K V α : Type _} [DecidableEq K] (key : α → K) :
    mapMacro ([] : List (K × V)) = hashMapNew ∧
    (mapMacro ([] : List (K × V))).length = 0 ∧
    (mapMacro ([] : List (K × V))).isEmpty = true ∧
    (∀ k : K, hmLookup (mapMacro ([] : List (K × V))) k = none) ∧
    setMacro key ([] : List α) = hashSetNew ∧
    (setMacro key ([] : List α)).length = 0 ∧
    (setMacro key ([] : List α)).isEmpty = true ∧
    ∀ q : K, hsFind key (setMacro key ([] : List α)) q = none :=
  ⟨rfl, rfl, rfl, fun _ => rfl, rfl, rfl, rfl, fun _ => rfl⟩

/-- C7: `s!()` returns the empty string, `String::new()`, of length 0. -/
theorem s_builder_empty :
    sMacroEmpty = stringNew ∧ sMacroEmpty = "" ∧ sMacroEmpty.length = 0 :=
  ⟨rfl, rfl, rfl⟩

/-- C8: no builder has a runtime error path: every well-typed invocation
returns a value.  For the formatting arm, well-typedness includes the
compile-time template check `templateOk`; under it the rendering always
produces a string, and the remaining arms are total outright. -/
theorem builders_total {K V α β : Type _} [DecidableEq K] (key : α → K)
    (P : List (K × V)) (E : List α) (toStr : β → String) (v : β)
    (t : String) (args : List FmtValue) (h : templateOk t args = true) :
    (∃ r, sMacroFmt t args = some r) ∧
    (∃ str, sMacroOne toStr v = str) ∧
    (∃ e, sMacroEmpty = e) ∧
    (∃ m, mapMacro P = m) ∧
    (∃ st, setMacro key E = st) := by
  refine ⟨?_, ⟨_, rfl⟩, ⟨_, rfl⟩, ⟨_, rfl⟩, ⟨_, rfl⟩⟩
  have hs := rustFormat_isSome t args h
  cases hr : rustFormat t args with
  | none => rw [hr] at hs; simp at hs
  | some r => exact ⟨r, hr⟩

/-- Witness for C8 at the template `"Hi {}"` with one argument. -/
theorem builders_total_witness :
    (sMacroFmt "Hi \x7b\x7d" [FmtValue.str "Bob"]).isSome = true := by
  obtain ⟨r, hr⟩ := (builders_total (fun n : Nat => n) [((1 : Nat), (2 : Nat))]
    [(1 : Nat)] (fun n : Nat => toString n) 1 "Hi \x7b\x7d" [FmtValue.str "Bob"]
    (by decide)).1
  rw [hr]
  rfl

/-- C9: when `set!(E)` meets an element equal (under the type's equality,
modelled by `key`) to one already inserted, the earlier occurrence stays
and the later duplicate is discarded: the stored representative of every
class is the first occurrence in `E`, and inserting into a set that
already holds an equal element returns the set unchanged — in contrast
to the map builder's last-wins rule for values. -/
theorem set_builder_first_wins {α K : Type _} [DecidableEq K] (key : α → K)
    (E : List α) (k : K) (s : List α) (e : α) :
    hsFind key (setMacro key E) k = E.find? (fun x => decide (key x = k)) ∧
    ((hsFind key s (key e)).isSome = true → hsInsert key s e = s) :=
  ⟨hsFind_setMacro key E k, hsInsert_mem_eq key s e⟩

/-- Witness for C9: two elements equal on their first component collapse
to the earlier one, and the duplicate insertion is a no-op. -/
theorem set_builder_first_wins_witness :
    hsFind Prod.fst (setMacro Prod.fst [((1 : Nat), (10 : Nat)), (1, 20)]) 1 =
      some (1, 10) ∧
    hsInsert Prod.fst [((1 : Nat), (10 : Nat))] (1, 20) = [(1, 10)] := by
  constructor
  · rw [(set_builder_first_wins Prod.fst [((1 : Nat), (10 : Nat)), (1, 20)] 1
      [] (1, 20)).1]
    decide
  · exact (set_builder_first_wins Prod.fst [] 1 [((1 : Nat), (10 : Nat))]
      ((1 : Nat), (20 : Nat))).2 (by decide)

/-- C10: each builder is deterministic in its argument values: equal
arguments give an identical string and identical map, and element lists
whose values are pairwise equal under the element equality give sets with
the same size and the same membership; no other input influences the
result. -/
theorem builders_deterministic {K V α β : Type _} [DecidableEq K]
    (t : String) (a1 a2 : List FmtValue) (ha : a1 = a2)
    (toStr : β → String) (v1 v2 : β) (hv : v1 = v2)
    (P Q : List (K × V)) (hpq : P = Q)
    (key : α → K) (E F : List α) (hef : E.map key = F.map key) :
    sMacroFmt t a1 = sMacroFmt t a2 ∧
    sMacroOne toStr v1 = sMacroOne toStr v2 ∧
    mapMacro P = mapMacro Q ∧
    (∀ k, hmLookup (mapMacro P) k = hmLookup (mapMacro Q) k) ∧
    (setMacro key E).length = (setMacro key F).length ∧
    ∀ k, ((hsFind key (setMacro key E) k).isSome = true ↔
      (hsFind key (setMacro key F) k).isSome = true) := by
  subst ha
  subst hv
  subst hpq
  refine ⟨rfl, rfl, rfl, fun _ => rfl, ?_, ?_⟩
  · rw [← List.length_map (setMacro key E) key, keys_setMacro,
      ← List.length_map (setMacro key F) key, keys_setMacro, hef]
  · intro k
    rw [hsFind_isSome_iff, hsFind_isSome_iff, keys_setMacro, keys_setMacro, hef]

/-- Witness for C10: element lists equal on first components but with
different second components give sets of the same size, and equal pair
lists give identical lookups. -/
theorem builders_deterministic_witness :
    (setMacro Prod.fst [((1 : Nat), (10 : Nat)), (2, 20)]).length =
      (setMacro Prod.fst [((1 : Nat), (11 : Nat)), (2, 22)]).length ∧
    hmLookup (mapMacro [((1 : Nat), (2 : Nat))]) 1 =
      hmLookup (mapMacro [((1 : Nat), (2 : Nat))]) 1 := by
  have h := builders_deterministic "x" [] [] rfl (fun n : Nat => toString n) 1 1 rfl
    [((1 : Nat), (2 : Nat))] [((1 : Nat), (2 : Nat))] rfl Prod.fst
    [((1 : Nat), (10 : Nat)), (2, 20)] [((1 : Nat), (11 : Nat)), (2, 22)] (by decide)
  exact ⟨h.2.2.2.2.1, h.2.2.2.1 1⟩

end Smacro
